import Mathlib

/-!
Shallow embedding of the NEGFC MCMC astrometry engine
(`vip/negfc/mcmc_opt.py`) and verification of its specification.

Numeric values held in Python floats are modelled as exact rationals (`ℚ`);
the value `-np.inf` (the only nonfinite value produced by the prior) is
modelled by a dedicated constructor of `LogVal`.  The MCMC chain, a numpy
array of shape `nwalkers × steps × dim` that only ever grows along the step
axis, is modelled step-major: a list over the step axis whose entries are
`walkers × parameters` matrices.
-/

namespace VIPMCMC

/-! ### Prior and posterior evaluators (`lnprior`, `lnprob`) -/

/-- A Python float that is either finite or `-np.inf`.  The prior
`lnprior` produces exactly these two shapes of value. -/
inductive LogVal where
  | finite (q : ℚ)
  | negInf
deriving DecidableEq, Repr

/-- The test `math.isinf`, restricted to the values `lnprior` can return. -/
def LogVal.isinf : LogVal → Bool
  | .negInf => true
  | .finite _ => false

/-- Addition of a finite float to a possibly infinite one, modelling the
expression `lp + lnlike(...)` in `lnprob`. -/
def LogVal.addQ : LogVal → ℚ → LogVal
  | .finite a, b => .finite (a + b)
  | .negInf, _ => .negInf

/-- The model parameters `(r, theta, flux)` unpacked at the top of
`lnprior` and `lnlike`. -/
structure ModelParams where
  r : ℚ
  theta : ℚ
  flux : ℚ
deriving DecidableEq, Repr

/-- The three `(lo, hi)` bound pairs `(r_bounds, theta_bounds, flux_bounds)`
unpacked at the top of `lnprior`. -/
structure ParamBounds where
  rB : ℚ × ℚ
  thetaB : ℚ × ℚ
  fluxB : ℚ × ℚ
deriving DecidableEq, Repr

/-- Source function `lnprior(modelParameters, bounds)`: returns `0.0` when
`r_bounds[0] <= r <= r_bounds[1]`, `theta_bounds[0] <= theta <= theta_bounds[1]`
and `flux_bounds[0] <= flux <= flux_bounds[1]`, else `-np.inf`. -/
def lnprior (p : ModelParams) (b : ParamBounds) : LogVal :=
  if b.rB.1 ≤ p.r ∧ p.r ≤ b.rB.2 ∧
     b.thetaB.1 ≤ p.theta ∧ p.theta ≤ b.thetaB.2 ∧
     b.fluxB.1 ≤ p.flux ∧ p.flux ≤ b.fluxB.2 then
    .finite 0
  else
    .negInf

/-- Source function `lnprob(modelParameters, bounds, ...)`: evaluates
`lnprior`, returns `-np.inf` when `isinf(lp)`, and otherwise returns
`lp + lnlike(...)`.  The expensive likelihood `lnlike` (a full
image-sequence reduction with all its array arguments) is abstracted as a
function argument so that its (non-)evaluation is visible in the model. -/
def lnprob (lnlike : ModelParams → ℚ) (p : ModelParams) (b : ParamBounds) : LogVal :=
  let lp := lnprior p b
  if lp.isinf then .negInf
  else lp.addQ (lnlike p)

/-! ### Convergence monitor (`gelman_rubin`) -/

/-- Arithmetic mean of a list, `np.mean` over one axis.  Division is the
total division of `ℚ` (an empty list yields `0/0 = 0`, a case the source
never reaches for the shapes it checks). -/
def mean (l : List ℚ) : ℚ := l.sum / l.length

/-- Number of chains `m` in `m, n = np.shape(x)`. -/
def nChains (x : List (List ℚ)) : ℕ := x.length

/-- Number of samples per chain `n` in `m, n = np.shape(x)` (the shape of a
rectangular 2-d array is read off the first row). -/
def nSamples (x : List (List ℚ)) : ℕ := (x.headD []).length

/-- Grand mean `np.mean(x)` of a 2-d array: the sum of all entries divided
by the total number of entries. -/
def grandMean (x : List (List ℚ)) : ℚ :=
  (x.map List.sum).sum / ((x.map List.length).sum : ℚ)

/-- Between-chain variance: source line
`B_over_n = np.sum((np.mean(x, 1) - np.mean(x)) ** 2) / (m - 1)`. -/
def B_over_n (x : List (List ℚ)) : ℚ :=
  ((x.map mean).map (fun mi => (mi - grandMean x) ^ 2)).sum / ((nChains x : ℚ) - 1)

/-- Within-chain variance: source line
`W = np.sum([(x[i] - xbar) ** 2 for i, xbar in enumerate(np.mean(x, 1))]) / (m * (n - 1))`. -/
def W (x : List (List ℚ)) : ℚ :=
  (x.map (fun row => (row.map (fun v => (v - mean row) ^ 2)).sum)).sum /
    ((nChains x : ℚ) * ((nSamples x : ℚ) - 1))

/-- Over-estimate of variance: source line `s2 = W * (n - 1) / n + B_over_n`. -/
def s2 (x : List (List ℚ)) : ℚ :=
  W x * ((nSamples x : ℚ) - 1) / (nSamples x : ℚ) + B_over_n x

/-- Pooled posterior variance estimate: source line `V = s2 + B_over_n / m`. -/
def Vpool (x : List (List ℚ)) : ℚ := s2 x + B_over_n x / (nChains x : ℚ)

/-- Source function `gelman_rubin(x)` on a 2-d array of `m ≥ 2` chains of
`n` samples: the potential scale reduction factor `R = V / W`.  (The
`np.shape(x) < (2,)` guard raising `ValueError` fires only for `m < 2` and
is outside the shapes quantified over here.) -/
def gelman_rubin (x : List (List ℚ)) : ℚ := Vpool x / W x

/-! ### Chain store (step-major model of the `nwalkers × steps × dim` array)

The chain grows only along the step axis, so it is modelled as a list over
steps; each entry is one step's `walkers × parameters` matrix. -/

/-- One step of the chain: the positions of all walkers (a
`walkers × parameters` matrix). -/
abbrev ChainStep := List (List ℚ)

/-- The chain, step-major: entry `t` is the `walkers × parameters` slice
`chain[:, t, :]` of the numpy array. -/
abbrev MChain := List ChainStep

/-- One all-zero step, the slice of `np.zeros([nwalkers, _, dim])` at a
fixed step index. -/
def zeroStep (nw dim : ℕ) : ChainStep :=
  List.replicate nw (List.replicate dim 0)

/-- Source lines `s = chain.shape[1]; if k+1 > s: empty =
np.zeros([nwalkers, 2*s, dim]); chain = np.concatenate((chain, empty),
axis=1)`: when step `k` does not fit, a zero block of `2*s` further steps
is appended. -/
def growIfNeeded (nw dim : ℕ) (c : MChain) (k : ℕ) : MChain :=
  if k + 1 > c.length then c ++ List.replicate (2 * c.length) (zeroStep nw dim)
  else c

/-- Source line `chain[:, k] = res[0]` together with the capacity check that
precedes it: store the walkers' positions `pos` at step `k`. -/
def storeStep (nw dim : ℕ) (c : MChain) (k : ℕ) (pos : ChainStep) : MChain :=
  (growIfNeeded nw dim c k).set k pos

/-- The storing part of the sampler loop: starting from chain `c` at step
counter `k`, store each successive walker-position matrix at steps
`k, k+1, ...`. -/
def storeLoop (nw dim : ℕ) (c : MChain) (k : ℕ) : List ChainStep → MChain
  | [] => c
  | pos :: rest => storeLoop nw dim (storeStep nw dim c k pos) (k + 1) rest

/-- A whole run of the chain store: the initial allocation
`chain = np.empty([nwalkers, 1, dim])` provides one step slot of
*uninitialized* memory, modelled by the arbitrary caller-supplied step `g`;
then the loop stores `positions` at steps `0, 1, ...`. -/
def runChainStore (nw dim : ℕ) (g : ChainStep) (positions : List ChainStep) : MChain :=
  storeLoop nw dim [g] 0 positions

/-! ### Convergence bookkeeping of the driver loop -/

/-- The convergence bookkeeping of `run_mcmc_astrometry`: the
consecutive-pass counter `rhat_count`, the step `konvergence` at which
convergence was declared and the scheduled `stop` step.  `konvergence` and
`stop` are initialised to `np.inf`, modelled as `none`. -/
structure ConvState where
  rhat_count : ℕ
  konvergence : Option ℕ
  stop : Option ℕ
deriving DecidableEq, Repr

/-- The driver's initial convergence state: `rhat_count = 0`,
`konvergence = np.inf`, `stop = np.inf`. -/
def initConvState : ConvState := ⟨0, none, none⟩

/-- The rhat test of the driver (source lines 548-556): `pass` stands for
`(rhat <= rhat_threshold).all()`, `thr` for `rhat_count_threshold`, `supp`
for `niteration_supp` and `k` for the current step. -/
def convergenceUpdate (thr supp k : ℕ) (pass : Bool) (st : ConvState) : ConvState :=
  if pass = true ∧ st.rhat_count < thr then
    { st with rhat_count := st.rhat_count + 1 }
  else if pass = true ∧ thr ≤ st.rhat_count then
    { st with konvergence := some k, stop := some (k + supp) }
  else
    { st with rhat_count := 0 }

/-- One scheduled convergence check: the rhat test runs only under the
driver's guard `konvergence == np.inf` (source line 534). -/
def convergenceCheck (thr supp : ℕ) (st : ConvState) (k : ℕ) (pass : Bool) : ConvState :=
  if st.konvergence = none then convergenceUpdate thr supp k pass st else st

/-- The sequence of convergence checks of a run, each given as the step `k`
at which it fires together with the outcome `pass` of its rhat test. -/
def runChecks (thr supp : ℕ) (checks : List (ℕ × Bool)) : ConvState :=
  checks.foldl (fun st kp => convergenceCheck thr supp st kp.1 kp.2) initConvState

/-! ### Iteration-count sanitisation -/

/-- Source lines `if itermin > limit: itermin = 0; print(...)`: the
effective minimum iteration count together with whether the warning was
printed. -/
def effectiveItermin (itermin limit : ℚ) : ℚ × Bool :=
  if itermin > limit then (0, true) else (itermin, false)

/-! ### Truncation and independent-sample extraction -/

/-- The scalar `chain[0, t, 0]` of a step-major chain: the first parameter
of walker 0, when both exist. -/
def param0walker0 (st : ChainStep) : Option ℚ :=
  st.head? >>= List.head?

/-- The elementwise condition `chain[0, t, 0] == 0.0` at one step. -/
def isZeroStart (st : ChainStep) : Bool :=
  param0walker0 st == some 0

/-- Source expression `np.where(chain[0, :, 0] == 0.0)[0]`: the list of
step indices whose condition holds, in increasing order. -/
def whereZeroSteps (c : MChain) : List ℕ :=
  c.findIdxs isZeroStart

/-- Source idiom `temp[0] if len(temp) != 0 else chain.shape[1]` (in
`chain_zero_truncated` the same value is produced by `try ... [0][0]
except: chain.shape[1]`). -/
def idxzeroOf (c : MChain) : ℕ :=
  (whereZeroSteps c).headD c.length

/-- The numpy slice `chain[:, a:b, :]` of a step-major chain. -/
def sliceSteps (a b : ℕ) (c : MChain) : MChain :=
  (c.drop a).take (b - a)

/-- Source function `chain_zero_truncated(chain)`: the chain restricted to
`chain[:, 0:idxzero, :]`. -/
def chain_zero_truncated (c : MChain) : MChain :=
  sliceSteps 0 (idxzeroOf c) c

/-- The independent-sample extraction at the end of `run_mcmc_astrometry`
(source lines 569-579): locate `idxzero`, set
`idx = np.amin([np.floor(2e05/nwalkers), np.floor(0.1*idxzero)])` and slice
the chain. -/
def extractIndependentSamples (nwalkers : ℕ) (c : MChain) : MChain :=
  let idxzero := idxzeroOf c
  let idx := min (200000 / nwalkers) (idxzero / 10)
  if idx = 0 then sliceSteps 0 idxzero c
  else sliceSteps (idxzero - idx) idxzero c

/-! ### Specification-side definitions

These follow the wording of the specification claims and are compared with
the source-side definitions above by the refinement theorems below. -/

/-- Spec wording: the mean of chain `i` of a 2-d array. -/
def chainMeanAt (x : List (List ℚ)) (i : ℕ) : ℚ := mean (x.getD i [])

/-- Spec wording: the grand mean, the sum of all `m × n` entries divided by
`m n`. -/
def grandMeanSpec (x : List (List ℚ)) : ℚ :=
  ((List.range (nChains x)).map (fun i =>
    ((List.range (nSamples x)).map (fun t => (x.getD i []).getD t 0)).sum)).sum /
    ((nChains x : ℚ) * (nSamples x : ℚ))

/-- Spec wording: the between-chain variance
`B/n = Σ over chains of (mean(chain_i) - grand_mean)^2 / (m-1)`. -/
def BOverNSpec (x : List (List ℚ)) : ℚ :=
  ((List.range (nChains x)).map
    (fun i => (chainMeanAt x i - grandMeanSpec x) ^ 2)).sum / ((nChains x : ℚ) - 1)

/-- Spec wording: the within-chain variance
`W = Σ_i Σ_t (x_it - mean(chain_i))^2 / (m (n-1))`. -/
def WSpec (x : List (List ℚ)) : ℚ :=
  ((List.range (nChains x)).map (fun i =>
    ((List.range (nSamples x)).map
      (fun t => ((x.getD i []).getD t 0 - chainMeanAt x i) ^ 2)).sum)).sum /
    ((nChains x : ℚ) * ((nSamples x : ℚ) - 1))

/-- Spec wording: the pooled variance estimate
`V = W (n-1)/n + B/n + (B/n)/m`. -/
def VSpec (x : List (List ℚ)) : ℚ :=
  WSpec x * ((nSamples x : ℚ) - 1) / (nSamples x : ℚ) + BOverNSpec x +
    BOverNSpec x / (nChains x : ℚ)

/-- Spec wording: `idxzero` is the first step index at which the first
parameter of walker 0 equals exactly `0.0`, the chain's capacity when no
such step exists. -/
def idxzeroSpec (c : MChain) : ℕ := c.findIdx isZeroStart

/-- Spec wording of the independent-sample extraction: with
`idx = min(floor(2e5/nwalkers), floor(0.1 * idxzero))`, return the last
`idx` filled steps of the chain (the steps from `idxzero - idx` to
`idxzero`), or the whole filled chain (steps `0` to `idxzero`) when
`idx = 0`. -/
def extractSpec (nwalkers : ℕ) (c : MChain) : MChain :=
  let iz := idxzeroSpec c
  let idx := min (200000 / nwalkers) (iz / 10)
  if idx = 0 then c.take iz
  else (c.take iz).drop (iz - idx)

end VIPMCMC

namespace VIPMCMC

/-! ### Helper lemmas -/

/-- A sum over a mapped list rewritten as a sum over its index range. -/
theorem sum_map_eq_range_sum {α : Type} (l : List α) (f : α → ℚ) (d : α) :
    (l.map f).sum = ((List.range l.length).map (fun i => f (l.getD i d))).sum := by
  induction l with
  | nil => simp
  | cons a t ih =>
    rw [List.map_cons, List.sum_cons, List.length_cons, List.range_succ_eq_map,
        List.map_cons, List.map_map]
    simp only [List.getD_cons_zero, Function.comp_def, Nat.succ_eq_add_one,
      List.getD_cons_succ, List.sum_cons]
    rw [ih]

/-- The head of the index list of all hits, defaulted to the length, is the
index of the first hit. -/
theorem findIdxs_headD_eq_findIdx {α : Type} (p : α → Bool) (l : List α) :
    (l.findIdxs p).headD l.length = l.findIdx p := by
  induction l with
  | nil => simp [List.findIdxs]
  | cons a t ih =>
    rw [List.findIdxs_cons, List.findIdx_cons]
    cases h : p a with
    | true => simp
    | false =>
      simp only [cond_false, List.length_cons]
      cases ht : t.findIdxs p with
      | nil =>
        rw [ht] at ih
        simp only [List.headD_nil] at ih
        simp [← ih]
      | cons b bs =>
        rw [ht] at ih
        simp only [List.headD_cons] at ih
        simp [ih]

/-- The source's where-then-head idiom computes the first index whose step
starts with a zero. -/
theorem idxzeroOf_eq_findIdx (c : MChain) : idxzeroOf c = c.findIdx isZeroStart :=
  findIdxs_headD_eq_findIdx isZeroStart c

/-- A sequence of convergence checks starting from a state that has already
declared convergence leaves the state unchanged (the driver's
`konvergence == np.inf` guard). -/
theorem foldl_check_frozen (thr supp : ℕ) (l : List ℕ) (st : ConvState)
    (h : ¬st.konvergence = none) :
    l.foldl (fun s k => convergenceCheck thr supp s k true) st = st := by
  induction l with
  | nil => rfl
  | cons k l ih => rw [List.foldl_cons, convergenceCheck, if_neg h]; exact ih

/-- State reached by a run of all-passing convergence checks, starting from
a not-yet-converged state with counter `c ≤ thr`. -/
theorem runChecks_all_pass_aux (thr supp : ℕ) :
    ∀ (ks : List ℕ) (c : ℕ), c ≤ thr →
      ks.foldl (fun s k => convergenceCheck thr supp s k true) ⟨c, none, none⟩ =
        if ks.length ≤ thr - c then ⟨c + ks.length, none, none⟩
        else ⟨thr, some (ks.getD (thr - c) 0), some (ks.getD (thr - c) 0 + supp)⟩ := by
  intro ks
  induction ks with
  | nil => intro c hc; simp
  | cons k ks ih =>
    intro c hc
    rw [List.foldl_cons]
    simp only [List.length_cons]
    by_cases hlt : c < thr
    · have hstep : convergenceCheck thr supp ⟨c, none, none⟩ k true =
          ⟨c + 1, none, none⟩ := by
        simp [convergenceCheck, convergenceUpdate, hlt]
      rw [hstep, ih (c + 1) hlt]
      have hidx : thr - c = (thr - (c + 1)) + 1 := by omega
      by_cases hlen : ks.length + 1 ≤ thr - c
      · rw [if_pos (by omega), if_pos hlen]
        have : c + 1 + ks.length = c + (ks.length + 1) := by omega
        rw [this]
      · rw [if_neg (by omega), if_neg hlen, hidx, List.getD_cons_succ]
    · have hceq : c = thr := by omega
      have hstep : convergenceCheck thr supp ⟨c, none, none⟩ k true =
          ⟨c, some k, some (k + supp)⟩ := by
        simp [convergenceCheck, convergenceUpdate, hlt, Nat.le_of_eq hceq.symm]
      rw [hstep, foldl_check_frozen thr supp ks _ (by simp)]
      rw [if_neg (by omega)]
      have h0 : thr - c = 0 := by omega
      rw [h0, List.getD_cons_zero, hceq]

/-! ### Claim theorems -/

/-- C7: for every 3-element parameter vector and every bounds list of 3
intervals, `lnprior` returns exactly `0.0` when each parameter lies within
its closed bound interval (the endpoints count as inside), and exactly
`-np.inf` when any one parameter lies strictly outside its interval. -/
theorem lnprior_closed_bounds (p : ModelParams) (b : ParamBounds) :
    (b.rB.1 ≤ p.r ∧ p.r ≤ b.rB.2 ∧ b.thetaB.1 ≤ p.theta ∧ p.theta ≤ b.thetaB.2 ∧
      b.fluxB.1 ≤ p.flux ∧ p.flux ≤ b.fluxB.2 → lnprior p b = .finite 0) ∧
    (p.r < b.rB.1 ∨ b.rB.2 < p.r ∨ p.theta < b.thetaB.1 ∨ b.thetaB.2 < p.theta ∨
      p.flux < b.fluxB.1 ∨ b.fluxB.2 < p.flux → lnprior p b = .negInf) := by
  constructor
  · intro h
    rw [lnprior, if_pos h]
  · intro h
    rw [lnprior, if_neg]
    rintro ⟨h1, h2, h3, h4, h5, h6⟩
    rcases h with h | h | h | h | h | h <;> linarith

/-- Witness for `lnprior_closed_bounds`: the boundary point `(0, 10, 5)` of
bounds `[(0,10),(0,10),(0,10)]` is inside; `(11, 5, 5)` is strictly
outside. -/
theorem lnprior_closed_bounds_witness :
    lnprior ⟨0, 10, 5⟩ ⟨(0, 10), (0, 10), (0, 10)⟩ = .finite 0 ∧
    lnprior ⟨11, 5, 5⟩ ⟨(0, 10), (0, 10), (0, 10)⟩ = .negInf :=
  ⟨(lnprior_closed_bounds ⟨0, 10, 5⟩ ⟨(0, 10), (0, 10), (0, 10)⟩).1 (by decide),
   (lnprior_closed_bounds ⟨11, 5, 5⟩ ⟨(0, 10), (0, 10), (0, 10)⟩).2 (by decide)⟩

/-- C4: `lnprob` returns `-np.inf` immediately when `lnprior` is `-np.inf`,
and its value then does not depend on the objective `lnlike` at all (the
objective is never evaluated); otherwise it returns `lnprior + lnlike` on
the same arguments. -/
theorem lnprob_short_circuit (f : ModelParams → ℚ) (p : ModelParams) (b : ParamBounds) :
    (lnprior p b = .negInf →
      lnprob f p b = .negInf ∧ ∀ g : ModelParams → ℚ, lnprob g p b = lnprob f p b) ∧
    (∀ q : ℚ, lnprior p b = .finite q → lnprob f p b = .finite (q + f p)) := by
  constructor
  · intro h
    constructor
    · simp [lnprob, h, LogVal.isinf]
    · intro g
      simp [lnprob, h, LogVal.isinf]
  · intro q h
    simp [lnprob, h, LogVal.isinf, LogVal.addQ]

/-- Witness for `lnprob_short_circuit`: out-of-bounds point `(11,5,5)` gives
`-np.inf` for any objective; in-bounds point `(5,5,5)` gives
`0 + lnlike`. -/
theorem lnprob_short_circuit_witness :
    lnprob (fun _ => 5) ⟨11, 5, 5⟩ ⟨(0, 10), (0, 10), (0, 10)⟩ = .negInf ∧
    lnprob (fun _ => 99) ⟨11, 5, 5⟩ ⟨(0, 10), (0, 10), (0, 10)⟩ =
      lnprob (fun _ => 5) ⟨11, 5, 5⟩ ⟨(0, 10), (0, 10), (0, 10)⟩ ∧
    lnprob (fun _ => 5) ⟨5, 5, 5⟩ ⟨(0, 10), (0, 10), (0, 10)⟩ = .finite (0 + 5) :=
  ⟨((lnprob_short_circuit (fun _ => 5) ⟨11, 5, 5⟩ ⟨(0, 10), (0, 10), (0, 10)⟩).1
      (by decide)).1,
   ((lnprob_short_circuit (fun _ => 5) ⟨11, 5, 5⟩ ⟨(0, 10), (0, 10), (0, 10)⟩).1
      (by decide)).2 (fun _ => 99),
   (lnprob_short_circuit (fun _ => 5) ⟨5, 5, 5⟩ ⟨(0, 10), (0, 10), (0, 10)⟩).2 0
      (by decide)⟩

/-- C8 counterexample: at `niteration_min = niteration_limit = 5` (so
`niteration_min >= niteration_limit` holds) the source does *not* reset the
minimum to 0 nor print the warning — the reset condition is the strict
`itermin > limit`. -/
theorem itermin_equal_limit_not_reset_cex :
    (5 : ℚ) ≥ 5 ∧ effectiveItermin 5 5 = (5, false) ∧
      ((5 : ℚ), false) ≠ ((0 : ℚ), true) := by decide

/-- C8 amended: the effective minimum is reset to 0 with a warning exactly
when `niteration_min > niteration_limit` (strictly); for
`niteration_min <= niteration_limit` (equality included) it is kept
unchanged and no warning is printed. -/
theorem effective_itermin_characterization (itermin limit : ℚ) :
    (limit < itermin → effectiveItermin itermin limit = (0, true)) ∧
    (itermin ≤ limit → effectiveItermin itermin limit = (itermin, false)) := by
  constructor
  · intro h
    rw [effectiveItermin, if_pos h]
  · intro h
    rw [effectiveItermin, if_neg (not_lt.mpr h)]

/-- Witness for `effective_itermin_characterization` at `(7, 5)` and
`(3, 5)`. -/
theorem effective_itermin_characterization_witness :
    effectiveItermin 7 5 = (0, true) ∧ effectiveItermin 3 5 = (3, false) :=
  ⟨(effective_itermin_characterization 7 5).1 (by decide),
   (effective_itermin_characterization 3 5).2 (by decide)⟩

/-- C10: on the valid input `[[1,1],[2,2]]` (`m = 2` chains of `n = 2`
samples, each chain constant) the within-chain variance `W` is `0` while
the pooled estimate `V` is not, so the final `R = V / W` of `gelman_rubin`
is a division by zero; under the total division of `ℚ` it collapses
to `0`. -/
theorem gelman_rubin_div_zero_on_constant_chains :
    nChains [[(1 : ℚ), 1], [2, 2]] = 2 ∧ nSamples [[(1 : ℚ), 1], [2, 2]] = 2 ∧
    W [[(1 : ℚ), 1], [2, 2]] = 0 ∧ Vpool [[(1 : ℚ), 1], [2, 2]] = 3 / 4 ∧
    gelman_rubin [[(1 : ℚ), 1], [2, 2]] = 0 := by
  norm_num [gelman_rubin, Vpool, s2, W, B_over_n, grandMean, mean, nChains, nSamples]

/-- C2 counterexample: with capacity `s = 1` and step `k = 1` the capacity
check fires (`k + 1 > s`) and the grown chain has capacity `3 = s + 2s`,
not `2s = 2`: growth is tripling, not doubling. -/
theorem chain_growth_triples_cex :
    1 + 1 > 1 ∧ (growIfNeeded 2 3 [zeroStep 2 3] 1).length = 3 ∧ (3 : ℕ) ≠ 2 * 1 := by
  decide

/-- C2 amended: the chain grows exactly when `k + 1` exceeds the current
capacity, by appending a zero block of twice the current capacity, so the
new capacity is exactly *three* times the old one; otherwise the chain is
left untouched. -/
theorem chain_growth_characterization (nw dim k : ℕ) (c : MChain) :
    (c.length < k + 1 → (growIfNeeded nw dim c k).length = 3 * c.length) ∧
    (k + 1 ≤ c.length → growIfNeeded nw dim c k = c) := by
  constructor
  · intro h
    rw [growIfNeeded, if_pos h]
    simp only [List.length_append, List.length_replicate]
    omega
  · intro h
    rw [growIfNeeded, if_neg (by omega)]

/-- Witness for `chain_growth_characterization`: growth at `(s, k) = (2, 2)`
yields capacity 6; no reallocation at `(s, k) = (1, 0)`. -/
theorem chain_growth_characterization_witness :
    (growIfNeeded 2 3 [zeroStep 2 3, zeroStep 2 3] 2).length = 3 * 2 ∧
    growIfNeeded 2 3 [zeroStep 2 3] 0 = [zeroStep 2 3] :=
  ⟨(chain_growth_characterization 2 3 2 [zeroStep 2 3, zeroStep 2 3]).1 (by decide),
   (chain_growth_characterization 2 3 0 [zeroStep 2 3]).2 (by decide)⟩

/-- C1 counterexample (with the default `rhat_count_threshold = 3`): after
three all-passing checks the counter has reached the threshold
(`rhat_count = 3 >= 3`) yet no convergence is declared and no stop is
scheduled at that check's step; and a fourth all-passing check does not
increment the counter.  The claim's "increment on every passing check" and
"declare convergence as soon as `rhat_count >= rhat_count_threshold`" both
fail on the code. -/
theorem convergence_not_declared_at_threshold_cex :
    (runChecks 3 7 [(10, true), (20, true), (30, true)]).rhat_count = 3 ∧
    3 ≤ 3 ∧
    (runChecks 3 7 [(10, true), (20, true), (30, true)]).konvergence = none ∧
    (runChecks 3 7 [(10, true), (20, true), (30, true)]).stop = none ∧
    (runChecks 3 7 [(10, true), (20, true), (30, true), (40, true)]).rhat_count ≠ 4 ∧
    (runChecks 3 7 [(10, true), (20, true), (30, true), (40, true)]).konvergence =
      some 40 := by decide

/-- C1 amended: at a passing check the counter is incremented only while
`rhat_count < rhat_count_threshold`; at a passing check with
`rhat_count >= rhat_count_threshold` convergence is declared at the current
step `k` with `stop = k + niteration_supp` and the counter left unchanged
(so convergence requires `rhat_count_threshold + 1` consecutive passing
checks and is declared at the last of them); a failing check resets the
counter to 0.  Consequently a run of all-passing checks at steps `ks`
declares convergence exactly at the check of index `rhat_count_threshold`. -/
theorem convergence_update_characterization (thr supp k : ℕ) (st : ConvState) :
    (st.rhat_count < thr →
      convergenceUpdate thr supp k true st = { st with rhat_count := st.rhat_count + 1 }) ∧
    (thr ≤ st.rhat_count →
      convergenceUpdate thr supp k true st =
        { st with konvergence := some k, stop := some (k + supp) }) ∧
    convergenceUpdate thr supp k false st = { st with rhat_count := 0 } ∧
    (∀ ks : List ℕ,
      runChecks thr supp (ks.map (fun j => (j, true))) =
        if ks.length ≤ thr then ⟨ks.length, none, none⟩
        else ⟨thr, some (ks.getD thr 0), some (ks.getD thr 0 + supp)⟩) := by
  refine ⟨?_, ?_, ?_, ?_⟩
  · intro h
    simp [convergenceUpdate, h]
  · intro h
    simp [convergenceUpdate, Nat.not_lt.mpr h, h]
  · simp [convergenceUpdate]
  · intro ks
    rw [runChecks, List.foldl_map]
    have := runChecks_all_pass_aux thr supp ks 0 (Nat.zero_le thr)
    simp only [Nat.sub_zero, Nat.zero_add] at this
    exact this

/-- Witness for `convergence_update_characterization` at threshold 3: a
passing check at counter 0 increments; a passing check at counter 3
declares convergence at the current step with `stop = k + supp`. -/
theorem convergence_update_characterization_witness :
    convergenceUpdate 3 7 5 true ⟨0, none, none⟩ = ⟨1, none, none⟩ ∧
    convergenceUpdate 3 7 5 true ⟨3, none, none⟩ = ⟨3, some 5, some 12⟩ ∧
    runChecks 3 7 [(10, true), (20, true), (30, true), (40, true)] =
      ⟨3, some 40, some 47⟩ :=
  ⟨(convergence_update_characterization 3 7 5 ⟨0, none, none⟩).1 (by decide),
   (convergence_update_characterization 3 7 5 ⟨3, none, none⟩).2.1 (by decide),
   (convergence_update_characterization 3 7 0 ⟨0, none, none⟩).2.2.2 [10, 20, 30, 40]⟩

/-- C5: the extraction at the end of the run computes `idxzero` as the
first step index at which the first parameter of walker 0 equals exactly
`0.0` (the capacity if none), sets
`idx = min(floor(2e5/nwalkers), floor(0.1*idxzero))` and returns the last
`idx` filled steps (`idxzero - idx` to `idxzero`), or the whole filled
chain when `idx = 0` — the source slicing agrees with this reading. -/
theorem extract_independent_samples_spec (nwalkers : ℕ) (c : MChain)
    (_hnw : 0 < nwalkers) :
    extractIndependentSamples nwalkers c = extractSpec nwalkers c := by
  simp only [extractIndependentSamples, extractSpec, idxzeroSpec, idxzeroOf_eq_findIdx,
    sliceSteps]
  by_cases h : min (200000 / nwalkers) (c.findIdx isZeroStart / 10) = 0
  · rw [if_pos h, if_pos h, List.drop_zero, Nat.sub_zero]
  · rw [if_neg h, if_neg h, List.drop_take]

/-- Witness for `extract_independent_samples_spec` at `nwalkers = 50` on a
three-step chain with no zero sentinel. -/
theorem extract_independent_samples_spec_witness :
    0 < 50 ∧
    extractIndependentSamples 50 [[[(1 : ℚ)]], [[2]], [[3]]] =
      extractSpec 50 [[[(1 : ℚ)]], [[2]], [[3]]] :=
  ⟨by decide, extract_independent_samples_spec 50 [[[(1 : ℚ)]], [[2]], [[3]]] (by decide)⟩

/-- C9: `chain_zero_truncated` is idempotent — truncating an
already-truncated chain returns it unchanged, because all steps before the
first zero-starting step fail the zero test, so the second pass finds no
sentinel and keeps the whole chain. -/
theorem chain_zero_truncated_idempotent (c : MChain) :
    chain_zero_truncated (chain_zero_truncated c) = chain_zero_truncated c := by
  have hsimp : ∀ d : MChain, chain_zero_truncated d = d.take (d.findIdx isZeroStart) := by
    intro d
    rw [chain_zero_truncated, sliceSteps, idxzeroOf_eq_findIdx, List.drop_zero,
      Nat.sub_zero]
  rw [hsimp c, hsimp (c.take (c.findIdx isZeroStart))]
  have hfi : (c.take (c.findIdx isZeroStart)).findIdx isZeroStart =
      (c.take (c.findIdx isZeroStart)).length := by
    rw [List.findIdx_eq_length]
    intro x hx
    rw [List.mem_iff_getElem] at hx
    obtain ⟨i, hi, rfl⟩ := hx
    have hlen : i < c.findIdx isZeroStart := by
      have h' := hi
      rw [List.length_take] at h'
      omega
    rw [List.getElem_take]
    exact List.not_of_lt_findIdx hlen
  rw [hfi, List.take_length]

/-- C6 counterexample: the initial one-step allocation comes from
`np.empty`, whose contents are arbitrary (here `5`), so before the first
step is stored (`N = 0` appended steps) the unfilled step 0 need not be
zero-valued. -/
theorem chain_initial_slot_not_zero_cex :
    (runChainStore 1 1 [[(5 : ℚ)]] []).getD 0 (zeroStep 1 1) ≠ zeroStep 1 1 := by
  decide

/-- Every chain slot at index at least `k` stays the zero step through the
rest of the store loop, provided it was zero before: growth appends only
zero blocks and each store writes below the remaining indices. -/
theorem storeLoop_getD_zero (nw dim : ℕ) :
    ∀ (rest : List ChainStep) (c : MChain) (k : ℕ),
      (∀ t, k ≤ t → c.getD t (zeroStep nw dim) = zeroStep nw dim) →
      ∀ t, k + rest.length ≤ t →
        (storeLoop nw dim c k rest).getD t (zeroStep nw dim) = zeroStep nw dim := by
  intro rest
  induction rest with
  | nil =>
    intro c k hc t ht
    rw [storeLoop]
    exact hc t (by simpa using ht)
  | cons pos rest ih =>
    intro c k hc t ht
    rw [storeLoop]
    apply ih (storeStep nw dim c k pos) (k + 1) _ t (by simp at ht ⊢; omega)
    intro u hu
    rw [storeStep]
    have hgrow : ∀ v, k ≤ v →
        (growIfNeeded nw dim c k).getD v (zeroStep nw dim) = zeroStep nw dim := by
      intro v hv
      rw [growIfNeeded]
      split
      · rw [List.getD_eq_getElem?_getD]
        rcases Nat.lt_or_ge v c.length with hlt | hge
        · rw [List.getElem?_append_left hlt, ← List.getD_eq_getElem?_getD]
          exact hc v hv
        · rw [List.getElem?_append_right hge, List.getElem?_replicate]
          split <;> simp
      · exact hc v hv
    rw [List.getD_eq_getElem?_getD, List.getElem?_set_ne (by omega : k ≠ u),
      ← List.getD_eq_getElem?_getD]
    exact hgrow u (by omega)

/-- C6 amended: once at least one step has been stored (`N >= 1` appended
steps), every chain slot at a step index at least `N` equals the zero
step: the `np.empty` slot is overwritten at step 0 and all capacity added
afterwards comes from `np.zeros` blocks. -/
theorem chain_entries_beyond_filled_are_zero (nw dim : ℕ) (g p0 : ChainStep)
    (rest : List ChainStep) (t : ℕ) (ht : (p0 :: rest).length ≤ t) :
    (runChainStore nw dim g (p0 :: rest)).getD t (zeroStep nw dim) = zeroStep nw dim := by
  rw [runChainStore, storeLoop]
  apply storeLoop_getD_zero nw dim rest (storeStep nw dim [g] 0 p0) 1 _ t
    (by simp at ht ⊢; omega)
  intro u hu
  rw [storeStep, growIfNeeded, if_neg (by simp)]
  rw [List.getD_eq_getElem?_getD]
  have hnone : (([g].set 0 p0))[u]? = none := by
    apply List.getElem?_eq_none
    simp
    omega
  rw [hnone]
  rfl

/-- Witness for `chain_entries_beyond_filled_are_zero`: after storing two
steps into a store whose `np.empty` slot held `5`, the grown slot at step 2
is the zero step. -/
theorem chain_entries_beyond_filled_are_zero_witness :
    2 ≤ 2 ∧
    (runChainStore 1 1 [[(5 : ℚ)]] [[[7]], [[9]]]).getD 2 (zeroStep 1 1) =
      zeroStep 1 1 :=
  ⟨by decide,
   chain_entries_beyond_filled_are_zero 1 1 [[(5 : ℚ)]] [[7]] [[[9]]] 2 (by decide)⟩

/-- Indexing with a default into the list of rows yields a member row. -/
theorem getD_row_mem (x : List (List ℚ)) (i : ℕ) (h : i < x.length) :
    x.getD i [] ∈ x := by
  have hx : x.getD i [] = x[i] := by
    rw [List.getD_eq_getElem?_getD, List.getElem?_eq_getElem h]
    rfl
  rw [hx]
  exact List.getElem_mem h

/-- A list's sum rewritten as a sum of defaulted lookups over its index
range. -/
theorem sum_as_range_sum (row : List ℚ) :
    row.sum = ((List.range row.length).map (fun t => row.getD t 0)).sum := by
  have h := sum_map_eq_range_sum row id 0
  simpa using h

/-- The total entry count of a rectangular 2-d array is `rows × columns`. -/
theorem sum_lengths_of_rect (x : List (List ℚ)) (n : ℕ)
    (h : ∀ row ∈ x, row.length = n) :
    (x.map List.length).sum = x.length * n := by
  induction x with
  | nil => simp
  | cons r t ih =>
    rw [List.map_cons, List.sum_cons, List.length_cons,
      ih (fun row hr => h row (List.mem_cons_of_mem r hr)),
      h r (List.mem_cons_self r t)]
    ring

/-- On rectangular input the source's `np.mean(x)` agrees with the
spec-side grand mean. -/
theorem grandMean_eq_spec (x : List (List ℚ))
    (hrect : ∀ row ∈ x, row.length = nSamples x) :
    grandMean x = grandMeanSpec x := by
  rw [grandMean, grandMeanSpec]
  have hnum : (x.map List.sum).sum =
      ((List.range (nChains x)).map (fun i =>
        ((List.range (nSamples x)).map (fun t => (x.getD i []).getD t 0)).sum)).sum := by
    rw [sum_map_eq_range_sum x List.sum []]
    refine congrArg List.sum (List.map_congr_left ?_)
    intro i hi
    rw [List.mem_range] at hi
    rw [sum_as_range_sum (x.getD i []), hrect _ (getD_row_mem x i hi)]
  have hden : ((x.map List.length).sum : ℚ) = (nChains x : ℚ) * (nSamples x : ℚ) := by
    rw [sum_lengths_of_rect x (nSamples x) hrect]
    push_cast
    rfl
  rw [hnum, hden]

/-- On rectangular input the source's between-chain variance agrees with
the spec-side formula. -/
theorem B_over_n_eq_spec (x : List (List ℚ))
    (hrect : ∀ row ∈ x, row.length = nSamples x) :
    B_over_n x = BOverNSpec x := by
  rw [B_over_n, BOverNSpec]
  rw [List.map_map]
  have hnum : (x.map ((fun mi => (mi - grandMean x) ^ 2) ∘ mean)).sum =
      ((List.range (nChains x)).map
        (fun i => (chainMeanAt x i - grandMeanSpec x) ^ 2)).sum := by
    rw [sum_map_eq_range_sum x ((fun mi => (mi - grandMean x) ^ 2) ∘ mean) []]
    refine congrArg List.sum (List.map_congr_left ?_)
    intro i hi
    simp only [Function.comp_apply, chainMeanAt, grandMean_eq_spec x hrect]
  rw [hnum]

/-- On rectangular input the source's within-chain variance agrees with the
spec-side double sum. -/
theorem W_eq_spec (x : List (List ℚ))
    (hrect : ∀ row ∈ x, row.length = nSamples x) :
    W x = WSpec x := by
  rw [W, WSpec]
  have hnum : (x.map (fun row => (row.map (fun v => (v - mean row) ^ 2)).sum)).sum =
      ((List.range (nChains x)).map (fun i =>
        ((List.range (nSamples x)).map
          (fun t => ((x.getD i []).getD t 0 - chainMeanAt x i) ^ 2)).sum)).sum := by
    rw [sum_map_eq_range_sum x (fun row => (row.map (fun v => (v - mean row) ^ 2)).sum) []]
    refine congrArg List.sum (List.map_congr_left ?_)
    intro i hi
    rw [List.mem_range] at hi
    rw [sum_map_eq_range_sum (x.getD i []) (fun v => (v - mean (x.getD i [])) ^ 2) 0,
      hrect _ (getD_row_mem x i hi)]
    simp only [chainMeanAt]
  rw [hnum]

/-- C3: for every 2-d input of `m >= 2` chains by `n >= 2` samples,
`gelman_rubin` returns exactly `V / W` with
`B/n = Σ (mean(chain_i) - grand_mean)^2 / (m-1)`,
`W = Σ_i Σ_t (x_it - mean(chain_i))^2 / (m(n-1))` and
`V = W(n-1)/n + B/n + (B/n)/m`. -/
theorem gelman_rubin_formula (x : List (List ℚ))
    (_hm : 2 ≤ nChains x) (_hn : 2 ≤ nSamples x)
    (hrect : ∀ row ∈ x, row.length = nSamples x) :
    gelman_rubin x = VSpec x / WSpec x := by
  rw [gelman_rubin, Vpool, s2, B_over_n_eq_spec x hrect, W_eq_spec x hrect, VSpec]

/-- Witness for `gelman_rubin_formula` on the rectangular 2×2 input
`[[0,2],[1,3]]`. -/
theorem gelman_rubin_formula_witness :
    2 ≤ nChains [[(0 : ℚ), 2], [1, 3]] ∧ 2 ≤ nSamples [[(0 : ℚ), 2], [1, 3]] ∧
    gelman_rubin [[(0 : ℚ), 2], [1, 3]] =
      VSpec [[(0 : ℚ), 2], [1, 3]] / WSpec [[(0 : ℚ), 2], [1, 3]] :=
  ⟨by decide, by decide,
   gelman_rubin_formula [[(0 : ℚ), 2], [1, 3]] (by decide) (by decide) (by decide)⟩

end VIPMCMC

